import Mathlib

/-!
Shallow embedding of the retrieval-and-context-assembly core of the
systematic-review backend (`src/backend/app.py`, `src/backend/utils.py`).

Text is modelled as `String` (with proofs working over the underlying
`List Char`).  Embedding vectors are modelled with exact integer
components (the FAISS flat L2 index stores float32 vectors verbatim and
compares squared Euclidean distances; on exact inputs the behaviour is
the integer behaviour).  External collaborators (the embedding provider,
the tokenizer `tiktoken`, the generation service) are parameters.
-/

namespace SystematicReview

/-! ## Chunker: `utils.split_text_into_chunks`

The source calls `textwrap.wrap(text, max_chars, break_long_words=False,
break_on_hyphens=False)`.  With those options `textwrap` splits the text
into whitespace-separated words (hyphens are not break points), then
greedily packs whole words into lines of at most `max_chars` characters;
a single word longer than the width is emitted on a line of its own,
never split.  Whitespace runs are modelled as single separators
(`replace_whitespace`/`drop_whitespace` normalise them; exact interior
whitespace does not affect the word sequence). -/

/-- Split a character list into its maximal whitespace-free words,
carrying the (reversed) current word as accumulator. -/
def wordsAux : List Char → List Char → List (List Char)
  | [], cur => if cur = [] then [] else [cur.reverse]
  | c :: rest, cur =>
    if c.isWhitespace then
      if cur = [] then wordsAux rest []
      else cur.reverse :: wordsAux rest []
    else wordsAux rest (c :: cur)

/-- The whitespace-separated words of a character list. -/
def words (l : List Char) : List (List Char) := wordsAux l []

/-- Greedy word-wrap: pack whole words into lines of at most `width`
characters (words joined by single spaces); the first word of a line is
always placed, even when longer than `width` (`break_long_words=False`).
`cur` is the reversed current line, `len` its rendered length. -/
def wrapAux (width : Nat) : List (List Char) → List (List Char) → Nat → List (List (List Char))
  | [], cur, _ => if cur = [] then [] else [cur.reverse]
  | w :: rest, cur, len =>
    if cur = [] then wrapAux width rest [w] w.length
    else if len + 1 + w.length ≤ width then wrapAux width rest (w :: cur) (len + 1 + w.length)
    else cur.reverse :: wrapAux width rest [w] w.length

/-- Model of `textwrap.wrap` on the word level: lines as lists of words. -/
def wrapWords (width : Nat) (ws : List (List Char)) : List (List (List Char)) :=
  wrapAux width ws [] 0

/-- Embedding of `utils.split_text_into_chunks(text, max_tokens)`: empty text gives no
chunks; otherwise wrap at `max_tokens * 4` characters. -/
def split_text_into_chunks (text : String) (max_tokens : Nat) : List String :=
  if text = "" then []
  else (wrapWords (max_tokens * 4) (words text.data)).map
    (fun lw => String.mk (List.intercalate [' '] lw))

/-! ## Embedding client: `utils.create_embeddings_with_tokens`

The provider (OpenAI embeddings endpoint) is a parameter.  The third
component of the result counts external provider calls actually made. -/

/-- Embedding of `utils.create_embeddings_with_tokens(text_list)`: an empty input list
returns `(empty, 0)` before the client is even initialised; otherwise one
provider call is made. -/
def create_embeddings_with_tokens
    (provider : List String → List (List Int) × Nat) (text_list : List String) :
    (List (List Int) × Nat) × Nat :=
  if text_list = [] then (([], 0), 0)
  else (provider text_list, 1)

/-! ## FAISS flat L2 index: search and persistence -/

/-- Squared Euclidean distance between two vectors. -/
def sqDist (u v : List Int) : Int :=
  (List.zipWith (fun a b => (a - b) * (a - b)) u v).sum

/-- Comparison used by the flat index: ascending distance, ties broken by
lower handle (insertion order). -/
def pairLE (p q : Int × Int) : Bool :=
  p.1 < q.1 || (p.1 == q.1 && p.2 ≤ q.2)

/-- Insert a `(distance, handle)` pair into a sorted list. -/
def insertSorted (p : Int × Int) : List (Int × Int) → List (Int × Int)
  | [] => [p]
  | q :: rest => if pairLE p q then p :: q :: rest else q :: insertSorted p rest

/-- Sort `(distance, handle)` pairs by distance, ties by handle. -/
def sortPairs : List (Int × Int) → List (Int × Int)
  | [] => []
  | p :: rest => insertSorted p (sortPairs rest)

/-- Model of `faiss_index.search(query, k)` on a flat L2 index holding `vectors`:
the `k` nearest `(distance, handle)` pairs in ascending distance order;
when `k` exceeds the index size the result is padded with `-1` entries
(FAISS padding). -/
def faissSearchFull (vectors : List (List Int)) (query : List Int) (k : Nat) :
    List (Int × Int) :=
  let scored := (List.range vectors.length).map
    (fun i => (sqDist (vectors.getD i []) query, (i : Int)))
  let sorted := sortPairs scored
  sorted.take k ++ List.replicate (k - sorted.length) ((-1 : Int), (-1 : Int))

/-- The handle component of a search (`I` in `D, I = index.search(...)`). -/
def faissSearch (vectors : List (List Int)) (query : List Int) (k : Nat) : List Int :=
  (faissSearchFull vectors query k).map (fun p => p.2)

/-- Serialized form of a flat index (`faiss.write_index` output): the
dimension, the number of stored vectors, and the flattened vector data. -/
structure IndexBlob where
  d : Nat
  ntotal : Nat
  data : List Int
deriving DecidableEq, Repr

/-- Model of `faiss.write_index`: serialize the stored vectors verbatim. -/
def write_index (vectors : List (List Int)) (d : Nat) : IndexBlob :=
  ⟨d, vectors.length, vectors.flatten⟩

/-- Model of `faiss.read_index`: reconstruct the stored vectors from the blob. -/
def read_index (b : IndexBlob) : List (List Int) :=
  (List.range b.ntotal).map (fun i => (b.data.drop (i * b.d)).take b.d)

/-! ## Chunk metadata and the upload pipeline (`app.upload_papers`) -/

/-- One metadata record, as built at `app.py:131-137`. -/
structure ChunkMeta where
  text : String
  paper_name : String
  paper_path : String
  chunk_index : Nat
  total_chunks : Nat
deriving DecidableEq, Repr

/-- The extraction loop of `upload_papers` (`app.py:113-137`): each saved
document is a `(paper_name, pdf_path, extraction result)` triple; a
document whose extraction returned nothing is skipped (`continue`),
otherwise its chunks are appended with their indices. -/
def buildAllMetadata (docs : List (String × String × Option String)) : List ChunkMeta :=
  docs.flatMap (fun d =>
    match d.2.2 with
    | none => []
    | some text =>
      let chunks := split_text_into_chunks text 1000
      chunks.enum.map (fun c => ⟨c.2, d.1, d.2.1, c.1, chunks.length⟩))

/-- Outcome of `upload_papers` from the point where the saved valid PDFs
are known: either an early 4xx error (returned before the embedding step
and before any index is built or persisted), or the success payload with
the returned paper-name list, the returned count, and the metadata that
the index is built over. -/
inductive UploadResponse where
  | err (http : Nat) (msg : String)
  | ok (papers : List String) (total_papers : Nat) (metadata : List ChunkMeta)
deriving DecidableEq, Repr

/-- Embedding of `app.upload_papers` after file saving (`app.py:110-186`): build the
metadata; if none was created return the 400 error (`app.py:139-141`),
otherwise proceed to embeddings/index and answer with the full
`paper_names` list (built at save time, `app.py:98`) and its length. -/
def upload_papers (docs : List (String × String × Option String)) : UploadResponse :=
  let all_metadata := buildAllMetadata docs
  if all_metadata = [] then
    .err 400 "Failed to process PDFs - no text extracted"
  else
    .ok (docs.map (fun d => d.1)) (docs.map (fun d => d.1)).length all_metadata

/-! ## Context assembly (`app.process_question`, `app.py:247-344`) -/

/-- Python list indexing as used at `app.py:265` (`metadata[idx]`):
non-negative indices are positions, `-1 ≤ idx < 0` counts from the end;
an index out of range on either side is modelled as `none` (Python would
raise, but such indices are never produced by the searches at issue). -/
def pyGetMeta (metadata : List ChunkMeta) (i : Int) : Option ChunkMeta :=
  if 0 ≤ i then metadata[i.toNat]?
  else if (-i).toNat ≤ metadata.length then metadata[metadata.length - (-i).toNat]?
  else none

/-- Append `text` to the group of `name` in an insertion-ordered
association list (a Python `dict` of lists, `app.py:262-269`): a new
paper name is appended at the end, an existing one has the text appended
to its chunk list. -/
def insertGroup (groups : List (String × List String)) (name : String) (text : String) :
    List (String × List String) :=
  match groups with
  | [] => [(name, [text])]
  | g :: rest =>
    if g.1 = name then (g.1, g.2 ++ [text]) :: rest
    else g :: insertGroup rest name text

/-- One iteration of the grouping loop (`app.py:263-269`): the guard
`idx < len(metadata)` then the dict update. -/
def groupStep (metadata : List ChunkMeta) (groups : List (String × List String))
    (idx : Int) : List (String × List String) :=
  if idx < (metadata.length : Int) then
    match pyGetMeta metadata idx with
    | some m => insertGroup groups m.paper_name m.text
    | none => groups
  else groups

/-- The dict `paper_contexts` (`app.py:262-269`): retrieved chunk texts grouped by
paper name in retrieval-rank order. -/
def groupByPaper (metadata : List ChunkMeta) (ids : List Int) :
    List (String × List String) :=
  ids.foldl (groupStep metadata) []

/-- Apply the per-paper cap (`limited_chunks = chunks[:cap]`,
`app.py:278` and `app.py:292`). -/
def limitedGroups (cap : Nat) (groups : List (String × List String)) :
    List (String × List String) :=
  groups.map (fun g => (g.1, g.2.take cap))

/-- A run of `n` equals signs (`'='*n`). -/
def eqSep (n : Nat) : String := String.mk (List.replicate n '=')

/-- Join strings on a separator (Python `sep.join`), made transparent on
the underlying character lists. -/
def joinStr (sep : String) (l : List String) : String :=
  String.mk (List.intercalate sep.data (l.map String.data))

/-- Render the capped groups into `papers_context`
(`app.py:275-280` / `app.py:290-294`, with separator `sep`). -/
def renderGroups (sep : String) (groups : List (String × List String)) : String :=
  groups.foldl
    (fun acc g =>
      acc ++ "\n\n" ++ sep ++ "\nPAPER: " ++ g.1 ++ "\n" ++ sep ++ "\n"
        ++ joinStr "\n\n" g.2 ++ "\n")
    ""

/-- The two-tier context assembly (`app.py:274-294`): render with cap 3
and a 60-character separator; if the token counter `tc` reports more than
10000 tokens, re-render exactly once with cap 2 and a 40-character
separator, and use that result as is. -/
def assembleContext (tc : String → Nat) (groups : List (String × List String)) : String :=
  let papers_context := renderGroups (eqSep 60) (limitedGroups 3 groups)
  if tc papers_context > 10000 then renderGroups (eqSep 40) (limitedGroups 2 groups)
  else papers_context

/-- The number of neighbours requested (`app.py:257`):
`num_chunks = min(20, len(metadata))`. -/
def num_chunks (metadata : List ChunkMeta) : Nat := min 20 metadata.length

/-- The retrieval-and-grouping front half of `process_question`
(`app.py:255-269`): search the index for the `num_chunks` nearest
neighbours of the query embedding, then group by paper. -/
def process_question_groups (vectors : List (List Int)) (query : List Int)
    (metadata : List ChunkMeta) : List (String × List String) :=
  groupByPaper metadata (faissSearch vectors query (num_chunks metadata))

/-! ## Prompt budget enforcement (`app.py:331-354`) -/

/-- Outcome of the budget check: either the `ValueError` carrying the
computed input-token count (`app.py:339-340`), or the generation call
with the computed `max_tokens` cap (`app.py:346-354`). -/
inductive GenOutcome where
  | contextTooLarge (input_tokens : Nat)
  | callModel (max_output_tokens : Int)
deriving DecidableEq, Repr

/-- Embedding of `app.py:337-354`: `max_output_tokens = min(2000, 16385 - input_tokens
- 500)`; below 500 the call fails fast with the token count, otherwise
the generation service is invoked with that cap. -/
def generationDecision (input_tokens : Nat) : GenOutcome :=
  let max_output_tokens : Int := min 2000 (16385 - (input_tokens : Int) - 500)
  if max_output_tokens < 500 then .contextTooLarge input_tokens
  else .callModel max_output_tokens

/-! ## Concrete inputs used to settle claims on specific scenarios -/

/-- Thirty chunks: papers "A", "B", "C" contributing 10 chunks each. -/
def cexMetadata : List ChunkMeta :=
  (List.range 30).map (fun i =>
    ⟨"chunk", if i < 10 then "A" else if i < 20 then "B" else "C", "p", i % 10, 10⟩)

/-- Thirty one-dimensional embedding vectors, all close to the query `[0]`
(paper "A" holds positions 0-9, "B" 10-19, "C" 20-29, in increasing
distance from the query). -/
def cexVectors : List (List Int) := (List.range 30).map (fun i => [(i : Int)])

/-! # Theorems -/

/-- C1: if the prompt token estimate exceeds `16385 - 500 - 500 = 15385`,
the generation call is never attempted and the `ContextTooLarge` error
carries the computed input-token count; at or below that bound the call
is made with cap `min(2000, 16385 - estimate - 500)`, which is at least
500. -/
theorem budget_enforcement (n : Nat) :
    (15385 < n → generationDecision n = .contextTooLarge n) ∧
    (n ≤ 15385 →
      generationDecision n = .callModel (min 2000 (16385 - (n : Int) - 500)) ∧
      (500 : Int) ≤ min 2000 (16385 - (n : Int) - 500)) := by
  unfold generationDecision
  constructor
  · intro h
    have hlt : min (2000 : Int) (16385 - (n : Int) - 500) < 500 := by omega
    simp [hlt]
  · intro h
    have hge : ¬ min (2000 : Int) (16385 - (n : Int) - 500) < 500 := by omega
    simp [hge]
    omega

/-- Witness for C1: at 16000 input tokens the call is refused with the
token count; at 1000 input tokens the call is made with a cap of at
least 500. -/
theorem budget_enforcement_witness :
    generationDecision 16000 = .contextTooLarge 16000 ∧
    (generationDecision 1000 = .callModel (min 2000 (16385 - (1000 : Int) - 500)) ∧
      (500 : Int) ≤ min 2000 (16385 - (1000 : Int) - 500)) :=
  ⟨(budget_enforcement 16000).1 (by norm_num),
    (budget_enforcement 1000).2 (by norm_num)⟩

/-- C6: on the empty input list the embedding client returns an empty
vector list and a token count of 0, and the provider call site is not
reached (zero external calls), for every provider. -/
theorem embed_empty_input (provider : List String → List (List Int) × Nat) :
    create_embeddings_with_tokens provider [] = (([], 0), 0) := rfl

/-- C4: whenever the token count of the normal rendering (cap 3,
60-character separator) exceeds 10000, the context is re-rendered in a
single deterministic pass with cap 2 and a 40-character separator, and
that re-rendered string is the result as is — no further truncation. -/
theorem fallback_single_pass (tc : String → Nat) (groups : List (String × List String))
    (h : 10000 < tc (renderGroups (eqSep 60) (limitedGroups 3 groups))) :
    assembleContext tc groups = renderGroups (eqSep 40) (limitedGroups 2 groups) := by
  unfold assembleContext
  simp [h]

/-- Witness for C4: a token counter reporting 10001 on every string
triggers exactly the cap-2, 40-character-separator re-render. -/
theorem fallback_single_pass_witness :
    assembleContext (fun _ => 10001) [("A", ["x"])]
      = renderGroups (eqSep 40) (limitedGroups 2 [("A", ["x"])]) :=
  fallback_single_pass (fun _ => 10001) [("A", ["x"])] (by norm_num)

/-- C3: for any paper whose retrieved chunks (in retrieval-rank order)
are `cs`, the normal rendering pass uses exactly `cs.take 3` — the first
at most 3 retrieved chunks — and the fallback pass uses exactly
`cs.take 2`, however many chunks of that paper were retrieved. -/
theorem per_group_cap (metadata : List ChunkMeta) (ids : List Int) (name : String)
    (cs : List String) (h : (name, cs) ∈ groupByPaper metadata ids) :
    ((name, cs.take 3) ∈ limitedGroups 3 (groupByPaper metadata ids) ∧
      (cs.take 3).length ≤ 3 ∧ cs.take 3 <+: cs) ∧
    ((name, cs.take 2) ∈ limitedGroups 2 (groupByPaper metadata ids) ∧
      (cs.take 2).length ≤ 2 ∧ cs.take 2 <+: cs) := by
  refine ⟨⟨?_, ?_, ?_⟩, ⟨?_, ?_, ?_⟩⟩
  · exact List.mem_map_of_mem (fun g => (g.1, g.2.take 3)) h
  · simp
  · exact ⟨cs.drop 3, List.take_append_drop 3 cs⟩
  · exact List.mem_map_of_mem (fun g => (g.1, g.2.take 2)) h
  · simp
  · exact ⟨cs.drop 2, List.take_append_drop 2 cs⟩

/-- Witness for C3: four chunks of paper "A" are retrieved; only the
first three (resp. two) survive the cap. -/
theorem per_group_cap_witness :
    (("A", ["t0", "t1", "t2", "t3"])
        ∈ groupByPaper
            [⟨"t0", "A", "p", 0, 4⟩, ⟨"t1", "A", "p", 1, 4⟩,
              ⟨"t2", "A", "p", 2, 4⟩, ⟨"t3", "A", "p", 3, 4⟩]
            [0, 1, 2, 3]) ∧
    ("A", ["t0", "t1", "t2"])
        ∈ limitedGroups 3
            (groupByPaper
              [⟨"t0", "A", "p", 0, 4⟩, ⟨"t1", "A", "p", 1, 4⟩,
                ⟨"t2", "A", "p", 2, 4⟩, ⟨"t3", "A", "p", 3, 4⟩]
              [0, 1, 2, 3]) := by
  have h := per_group_cap
    [⟨"t0", "A", "p", 0, 4⟩, ⟨"t1", "A", "p", 1, 4⟩,
      ⟨"t2", "A", "p", 2, 4⟩, ⟨"t3", "A", "p", 3, 4⟩]
    [0, 1, 2, 3] "A" ["t0", "t1", "t2", "t3"] (by decide)
  exact ⟨by decide, h.1.1⟩

theorem mem_insertSorted {p q : Int × Int} {l : List (Int × Int)}
    (h : q ∈ insertSorted p l) : q = p ∨ q ∈ l := by
  induction l with
  | nil => simpa [insertSorted] using h
  | cons a rest ih =>
    cases hc : pairLE p a <;> simp [insertSorted, hc] at h
    · rcases h with h | h
      · exact Or.inr (by simp [h])
      · rcases ih h with h2 | h2
        · exact Or.inl h2
        · exact Or.inr (List.mem_cons_of_mem _ h2)
    · rcases h with h | h
      · exact Or.inl h
      · exact Or.inr (List.mem_cons.mpr h)

theorem length_insertSorted (p : Int × Int) (l : List (Int × Int)) :
    (insertSorted p l).length = l.length + 1 := by
  induction l with
  | nil => rfl
  | cons a rest ih => cases hc : pairLE p a <;> simp [insertSorted, hc, ih]

theorem length_sortPairs (l : List (Int × Int)) : (sortPairs l).length = l.length := by
  induction l with
  | nil => rfl
  | cons p rest ih => simp [sortPairs, length_insertSorted, ih]

theorem mem_sortPairs {q : Int × Int} {l : List (Int × Int)} (h : q ∈ sortPairs l) :
    q ∈ l := by
  induction l with
  | nil => simp [sortPairs] at h
  | cons p rest ih =>
    rcases mem_insertSorted (by simpa [sortPairs] using h) with h2 | h2
    · simp [h2]
    · exact List.mem_cons_of_mem _ (ih h2)

/-- C10: when the index holds exactly as many vectors as there are
metadata records, every handle returned by the search request of size
`min(20, len(metadata))` is non-negative and within the metadata list
(no FAISS `-1` padding handle appears), so every dereference during
grouping is defined. -/
theorem search_handles_valid (vectors : List (List Int)) (query : List Int)
    (metadata : List ChunkMeta) (h : vectors.length = metadata.length) :
    ∀ i ∈ faissSearch vectors query (num_chunks metadata),
      0 ≤ i ∧ i < (metadata.length : Int) ∧ (pyGetMeta metadata i).isSome := by
  intro i hi
  simp only [faissSearch, faissSearchFull] at hi
  have hslen : (sortPairs ((List.range vectors.length).map
      (fun j => (sqDist (vectors.getD j []) query, (j : Int))))).length
      = vectors.length := by
    rw [length_sortPairs, List.length_map, List.length_range]
  have hk : num_chunks metadata
      ≤ (sortPairs ((List.range vectors.length).map
          (fun j => (sqDist (vectors.getD j []) query, (j : Int))))).length := by
    rw [hslen, h]
    exact min_le_right _ _
  rw [Nat.sub_eq_zero_of_le hk] at hi
  simp only [List.replicate_zero, List.append_nil, List.mem_map] at hi
  obtain ⟨p, hp, hpi⟩ := hi
  have hmem := mem_sortPairs (List.mem_of_mem_take hp)
  simp only [List.mem_map, List.mem_range] at hmem
  obtain ⟨j, hj, hpj⟩ := hmem
  have hij : i = (j : Int) := by rw [← hpi, ← hpj]
  subst hij
  have hjm : j < metadata.length := h ▸ hj
  refine ⟨Int.ofNat_nonneg j, by exact_mod_cast hjm, ?_⟩
  simp only [pyGetMeta, Int.toNat_ofNat, if_pos (Int.ofNat_nonneg j)]
  simp [List.getElem?_eq_getElem hjm]

/-- Witness for C10: a two-vector index with two metadata records; handle
0 is returned by the search and is a valid position. -/
theorem search_handles_valid_witness :
    0 ≤ (0 : Int) ∧
    (0 : Int) < (([⟨"t", "A", "p", 0, 1⟩, ⟨"u", "B", "q", 0, 1⟩] : List ChunkMeta).length : Int) ∧
    (pyGetMeta [⟨"t", "A", "p", 0, 1⟩, ⟨"u", "B", "q", 0, 1⟩] 0).isSome :=
  search_handles_valid [[0], [1]] [0]
    [⟨"t", "A", "p", 0, 1⟩, ⟨"u", "B", "q", 0, 1⟩] (by decide) 0 (by decide)

theorem mem_keys_insertGroup_self (groups : List (String × List String))
    (name : String) (t : String) :
    name ∈ (insertGroup groups name t).map (fun g => g.1) := by
  induction groups with
  | nil => simp [insertGroup]
  | cons g rest ih =>
    by_cases hg : g.1 = name
    · simp [insertGroup, hg]
    · simp only [insertGroup, if_neg hg, List.map_cons, List.mem_cons]
      exact Or.inr ih

theorem mem_keys_insertGroup_mono {k : String} (groups : List (String × List String))
    (name : String) (t : String) (h : k ∈ groups.map (fun g => g.1)) :
    k ∈ (insertGroup groups name t).map (fun g => g.1) := by
  induction groups with
  | nil => simp at h
  | cons g rest ih =>
    by_cases hg : g.1 = name
    · simpa [insertGroup, hg] using h
    · simp only [insertGroup, if_neg hg, List.map_cons, List.mem_cons] at h ⊢
      rcases h with h | h
      · exact Or.inl h
      · exact Or.inr (ih h)

theorem mem_keys_groupStep_mono {k : String} (md : List ChunkMeta)
    (groups : List (String × List String)) (i : Int)
    (h : k ∈ groups.map (fun g => g.1)) :
    k ∈ (groupStep md groups i).map (fun g => g.1) := by
  unfold groupStep
  by_cases hlt : i < (md.length : Int)
  · rw [if_pos hlt]
    cases hm : pyGetMeta md i with
    | none => exact h
    | some m => exact mem_keys_insertGroup_mono groups m.paper_name m.text h
  · rwa [if_neg hlt]

theorem mem_keys_foldl {k : String} (md : List ChunkMeta) (ids : List Int)
    (groups : List (String × List String)) (h : k ∈ groups.map (fun g => g.1)) :
    k ∈ (ids.foldl (groupStep md) groups).map (fun g => g.1) := by
  induction ids generalizing groups with
  | nil => simpa using h
  | cons i rest ih => exact ih _ (mem_keys_groupStep_mono md groups i h)

theorem mem_keys_foldl_of_processed (metadata : List ChunkMeta)
    (ids : List Int) (i : Int) (m : ChunkMeta)
    (h2 : i < (metadata.length : Int)) (h3 : pyGetMeta metadata i = some m) :
    ∀ groups, i ∈ ids →
      m.paper_name ∈ (ids.foldl (groupStep metadata) groups).map (fun g => g.1) := by
  induction ids with
  | nil => intro groups hmem; simp at hmem
  | cons a rest ih =>
    intro groups hmem
    rcases List.mem_cons.mp hmem with rfl | hmem2
    · have hstep : m.paper_name ∈ (groupStep metadata groups i).map (fun g => g.1) := by
        simp only [groupStep, if_pos h2, h3]
        exact mem_keys_insertGroup_self groups m.paper_name m.text
      simpa using mem_keys_foldl metadata rest _ hstep
    · simpa using ih (groupStep metadata groups a) hmem2

/-- C2 amended: every source document represented among the returned
neighbour handles contributes to the assembled context — its name is a
key of the per-paper grouping.  (A source whose chunks all rank outside
the retrieved top-`min(20, N)` can still be absent; see the
counterexample.) -/
theorem context_covers_retrieved_sources (metadata : List ChunkMeta)
    (ids : List Int) (i : Int) (m : ChunkMeta)
    (h1 : i ∈ ids) (h2 : i < (metadata.length : Int))
    (h3 : pyGetMeta metadata i = some m) :
    m.paper_name ∈ (groupByPaper metadata ids).map (fun g => g.1) := by
  unfold groupByPaper
  exact mem_keys_foldl_of_processed metadata ids i m h2 h3 [] h1

/-- Witness for C2's amended statement: handle 0 is retrieved and paper
"A" (its source) appears among the context groups. -/
theorem context_covers_retrieved_sources_witness :
    (ChunkMeta.mk "t" "A" "p" 0 1).paper_name
      ∈ (groupByPaper [⟨"t", "A", "p", 0, 1⟩] [0]).map (fun g => g.1) :=
  context_covers_retrieved_sources [⟨"t", "A", "p", 0, 1⟩] [0] 0
    ⟨"t", "A", "p", 0, 1⟩ (by decide) (by decide) (by decide)

/-- C2 counterexample: thirty chunks, papers "A", "B" and "C" each
contributing 10 chunks near the query, but every chunk of "C" ranks
behind the 20 chunks of "A" and "B"; the retrieval keeps the global
top-`min(20, 30)` only, so the assembled context contains no chunk of
"C" — the claim fails as stated. -/
theorem three_papers_counterexample :
    (cexMetadata.filter (fun m => m.paper_name = "A")).length = 10 ∧
    (cexMetadata.filter (fun m => m.paper_name = "B")).length = 10 ∧
    (cexMetadata.filter (fun m => m.paper_name = "C")).length = 10 ∧
    cexVectors.length = cexMetadata.length ∧
    (process_question_groups cexVectors [0] cexMetadata).map (fun g => g.1)
      = ["A", "B"] ∧
    "C" ∉ (process_question_groups cexVectors [0] cexMetadata).map (fun g => g.1) := by
  decide

theorem flatten_chunks (d : Nat) (vs : List (List Int)) :
    (∀ v ∈ vs, v.length = d) →
    (List.range vs.length).map (fun i => (vs.flatten.drop (i * d)).take d) = vs := by
  induction vs with
  | nil => intro _; simp
  | cons v vs ih =>
    intro h
    have hv : v.length = d := h v (List.mem_cons_self v vs)
    have hs : ∀ w ∈ vs, w.length = d := fun w hw => h w (List.mem_cons_of_mem v hw)
    have htail : ∀ i ∈ List.range vs.length,
        (((v :: vs).flatten.drop ((i + 1) * d)).take d)
          = (vs.flatten.drop (i * d)).take d := by
      intro i _
      have harith : (i + 1) * d = v.length + i * d := by rw [hv]; ring
      rw [List.flatten_cons, harith, ← List.drop_drop, List.drop_left]
    have hhead : (((v :: vs).flatten).drop (0 * d)).take d = v := by
      rw [List.flatten_cons, Nat.zero_mul, List.drop_zero, ← hv, List.take_left]
    calc (List.range (v :: vs).length).map
          (fun i => ((v :: vs).flatten.drop (i * d)).take d)
        = (((v :: vs).flatten.drop (0 * d)).take d)
            :: (List.range vs.length).map
                 (fun i => ((v :: vs).flatten.drop ((i + 1) * d)).take d) := by
          rw [List.length_cons, List.range_succ_eq_map, List.map_cons, List.map_map]
          rfl
      _ = v :: (List.range vs.length).map
                 (fun i => (vs.flatten.drop (i * d)).take d) := by
          rw [hhead, List.map_congr_left htail]
      _ = v :: vs := by rw [ih hs]

theorem read_write_roundtrip (vectors : List (List Int)) (d : Nat)
    (h : ∀ v ∈ vectors, v.length = d) :
    read_index (write_index vectors d) = vectors := by
  unfold read_index write_index
  exact flatten_chunks d vectors h

/-- C7: persisting a flat index built from a non-empty uniform-dimension
vector set and restoring it reproduces the stored vectors exactly, so a
search of the restored index returns the same handles, the same
distances, in the same order as a search of the original. -/
theorem persist_restore_search (vectors : List (List Int)) (d : Nat)
    (query : List Int) (k : Nat) (_hne : vectors ≠ [])
    (h : ∀ v ∈ vectors, v.length = d) :
    read_index (write_index vectors d) = vectors ∧
    faissSearchFull (read_index (write_index vectors d)) query k
      = faissSearchFull vectors query k ∧
    faissSearch (read_index (write_index vectors d)) query k
      = faissSearch vectors query k := by
  have hrt := read_write_roundtrip vectors d h
  exact ⟨hrt, by rw [hrt], by rw [hrt]⟩

/-- Witness for C7: a two-vector two-dimensional index round-trips and
searches identically. -/
theorem persist_restore_search_witness :
    read_index (write_index [[1, 2], [3, 4]] 2) = [[1, 2], [3, 4]] ∧
    faissSearchFull (read_index (write_index [[1, 2], [3, 4]] 2)) [0, 0] 5
      = faissSearchFull [[1, 2], [3, 4]] [0, 0] 5 ∧
    faissSearch (read_index (write_index [[1, 2], [3, 4]] 2)) [0, 0] 5
      = faissSearch [[1, 2], [3, 4]] [0, 0] 5 :=
  persist_restore_search [[1, 2], [3, 4]] 2 [0, 0] 5 (by decide) (by decide)

theorem wordsAux_all_ws (l : List Char) (h : ∀ c ∈ l, c.isWhitespace = true) :
    wordsAux l [] = [] := by
  induction l with
  | nil => rfl
  | cons c rest ih =>
    have hc : c.isWhitespace = true := h c (List.mem_cons_self c rest)
    simp [wordsAux, hc, ih (fun x hx => h x (List.mem_cons_of_mem c hx))]

theorem wordsAux_nonws (w : List Char) : ∀ cur,
    (∀ c ∈ w, c.isWhitespace = false) →
    wordsAux w cur = if cur.reverse ++ w = [] then [] else [cur.reverse ++ w] := by
  induction w with
  | nil =>
    intro cur _
    by_cases hc : cur = [] <;> simp [wordsAux, hc]
  | cons c rest ih =>
    intro cur h
    have hc : c.isWhitespace = false := h c (List.mem_cons_self c rest)
    have hrest : ∀ x ∈ rest, x.isWhitespace = false :=
      fun x hx => h x (List.mem_cons_of_mem c hx)
    simp only [wordsAux, hc, Bool.false_eq_true, if_false]
    rw [ih (c :: cur) hrest]
    have h1 : (c :: cur).reverse ++ rest = cur.reverse ++ (c :: rest) := by
      simp
    rw [h1]

theorem words_append_space (l₂ : List Char) : ∀ (l₁ cur : List Char),
    wordsAux (l₁ ++ ' ' :: l₂) cur = wordsAux l₁ cur ++ wordsAux l₂ [] := by
  intro l₁
  induction l₁ with
  | nil =>
    intro cur
    have hsp : (' ').isWhitespace = true := by decide
    by_cases hc : cur = [] <;> simp [wordsAux, hsp, hc]
  | cons c rest ih =>
    intro cur
    by_cases hc : c.isWhitespace = true
    · by_cases hcur : cur = [] <;> simp [wordsAux, hc, hcur, ih]
    · have hc2 : c.isWhitespace = false := by simpa using hc
      simp [wordsAux, hc2, ih]

theorem wordsAux_words_nonws (l : List Char) : ∀ cur,
    (∀ c ∈ cur, c.isWhitespace = false) →
    ∀ w ∈ wordsAux l cur, w ≠ [] ∧ ∀ c ∈ w, c.isWhitespace = false := by
  induction l with
  | nil =>
    intro cur hcur w hw
    by_cases hc : cur = []
    · simp [wordsAux, hc] at hw
    · simp [wordsAux, hc] at hw
      subst hw
      refine ⟨by simpa using hc, ?_⟩
      intro c hcp
      exact hcur c (List.mem_reverse.mp hcp)
  | cons c rest ih =>
    intro cur hcur w hw
    by_cases hc : c.isWhitespace = true
    · by_cases hcn : cur = []
      · simp [wordsAux, hc, hcn] at hw
        exact ih [] (by simp) w hw
      · simp [wordsAux, hc, hcn] at hw
        rcases hw with hw | hw
        · subst hw
          refine ⟨by simpa using hcn, ?_⟩
          intro x hx
          exact hcur x (List.mem_reverse.mp hx)
        · exact ih [] (by simp) w hw
    · have hc2 : c.isWhitespace = false := by simpa using hc
      simp only [wordsAux, hc2, Bool.false_eq_true, if_false] at hw
      refine ih (c :: cur) ?_ w hw
      intro x hx
      rcases List.mem_cons.mp hx with rfl | hx2
      · exact hc2
      · exact hcur x hx2

theorem wrapAux_flatten (width : Nat) (ws : List (List Char)) : ∀ cur len,
    (wrapAux width ws cur len).flatten = cur.reverse ++ ws := by
  induction ws with
  | nil =>
    intro cur len
    by_cases hc : cur = [] <;> simp [wrapAux, hc]
  | cons w rest ih =>
    intro cur len
    by_cases hc : cur = []
    · simp [wrapAux, hc, ih]
    · by_cases hfit : len + 1 + w.length ≤ width
      · simp [wrapAux, hc, hfit, ih]
      · simp [wrapAux, hc, hfit, ih]

theorem wrapAux_lines_ne_nil (width : Nat) (ws : List (List Char)) : ∀ cur len,
    ∀ line ∈ wrapAux width ws cur len, line ≠ [] := by
  induction ws with
  | nil =>
    intro cur len line hline
    by_cases hc : cur = []
    · simp [wrapAux, hc] at hline
    · simp [wrapAux, hc] at hline
      subst hline
      simpa using hc
  | cons w rest ih =>
    intro cur len line hline
    by_cases hc : cur = []
    · simp only [wrapAux, hc, if_pos rfl] at hline
      exact ih [w] w.length line (by simpa using hline)
    · by_cases hfit : len + 1 + w.length ≤ width
      · simp only [wrapAux, if_neg hc, if_pos hfit] at hline
        exact ih (w :: cur) (len + 1 + w.length) line hline
      · simp only [wrapAux, if_neg hc, if_neg hfit, List.mem_cons] at hline
        rcases hline with h | h
        · subst h; simpa using hc
        · exact ih [w] w.length line h

theorem intercalate_cons_cons (sep : List Char) (a b : List Char)
    (l : List (List Char)) :
    List.intercalate sep (a :: b :: l) = a ++ sep ++ List.intercalate sep (b :: l) := by
  simp [List.intercalate, List.intersperse]

theorem words_intercalate (ws : List (List Char)) :
    (∀ w ∈ ws, w ≠ [] ∧ ∀ c ∈ w, c.isWhitespace = false) →
    words (List.intercalate [' '] ws) = ws := by
  induction ws with
  | nil => intro _; simp [List.intercalate, words, wordsAux]
  | cons w rest ih =>
    intro h
    have hw := h w (List.mem_cons_self w rest)
    have hrest : ∀ x ∈ rest, x ≠ [] ∧ ∀ c ∈ x, c.isWhitespace = false :=
      fun x hx => h x (List.mem_cons_of_mem w hx)
    cases rest with
    | nil =>
      have hsingle : List.intercalate [' '] [w] = w := by
        simp [List.intercalate]
      rw [hsingle]
      unfold words
      rw [wordsAux_nonws w [] hw.2]
      simp [hw.1]
    | cons w2 rest2 =>
      rw [intercalate_cons_cons]
      have hshape : w ++ [' '] ++ List.intercalate [' '] (w2 :: rest2)
          = w ++ ' ' :: List.intercalate [' '] (w2 :: rest2) := by simp
      rw [hshape]
      unfold words
      rw [words_append_space]
      rw [wordsAux_nonws w [] hw.2]
      have hrec : wordsAux (List.intercalate [' '] (w2 :: rest2)) [] = w2 :: rest2 := by
        simpa [words] using ih hrest
      rw [hrec]
      simp [hw.1]

theorem words_intercalate_lines (lines : List (List (List Char))) :
    (∀ line ∈ lines, line ≠ []) →
    (∀ line ∈ lines, ∀ w ∈ line, w ≠ [] ∧ ∀ c ∈ w, c.isWhitespace = false) →
    words (List.intercalate [' '] (lines.map (List.intercalate [' '])))
      = lines.flatten := by
  induction lines with
  | nil => intro _ _; simp [List.intercalate, words, wordsAux]
  | cons line rest ih =>
    intro h1 h2
    have hline2 := h2 line (List.mem_cons_self line rest)
    have h1r : ∀ x ∈ rest, x ≠ [] := fun x hx => h1 x (List.mem_cons_of_mem line hx)
    have h2r : ∀ x ∈ rest, ∀ w ∈ x, w ≠ [] ∧ ∀ c ∈ w, c.isWhitespace = false :=
      fun x hx => h2 x (List.mem_cons_of_mem line hx)
    cases rest with
    | nil =>
      have hsingle : List.intercalate [' '] [List.intercalate [' '] line]
          = List.intercalate [' '] line := by
        simp [List.intercalate]
      simp only [List.map_cons, List.map_nil, hsingle]
      rw [words_intercalate line hline2]
      simp
    | cons line2 rest2 =>
      simp only [List.map_cons]
      rw [intercalate_cons_cons]
      have hshape : List.intercalate [' '] line ++ [' ']
            ++ List.intercalate [' ']
                (List.intercalate [' '] line2 :: rest2.map (List.intercalate [' ']))
          = List.intercalate [' '] line ++ ' '
            :: List.intercalate [' ']
                (List.intercalate [' '] line2 :: rest2.map (List.intercalate [' '])) := by
        simp
      rw [hshape]
      unfold words
      rw [words_append_space]
      have hleft : wordsAux (List.intercalate [' '] line) [] = line := by
        simpa [words] using words_intercalate line hline2
      have hright : wordsAux
            (List.intercalate [' ']
              (List.intercalate [' '] line2 :: rest2.map (List.intercalate [' ']))) []
          = (line2 :: rest2).flatten := by
        simpa [words, List.map_cons] using ih h1r h2r
      rw [hleft, hright]
      simp

/-- C5: for empty or whitespace-only input `split` returns no chunks; for
any input, joining the returned chunks with single spaces yields text
with exactly the input's word sequence — no word is split across chunks
or broken at a hyphen (hyphens are not whitespace, so hyphenated
compounds stay inside one word). -/
theorem chunker_preserves_words (text : String) (max_tokens : Nat) :
    ((∀ c ∈ text.data, c.isWhitespace = true) →
        split_text_into_chunks text max_tokens = []) ∧
    words (List.intercalate [' ']
        ((split_text_into_chunks text max_tokens).map String.data))
      = words text.data := by
  constructor
  · intro h
    unfold split_text_into_chunks
    by_cases ht : text = ""
    · simp [ht]
    · rw [if_neg ht]
      have hw : words text.data = [] := wordsAux_all_ws text.data h
      simp [hw, wrapWords, wrapAux]
  · unfold split_text_into_chunks
    by_cases ht : text = ""
    · subst ht
      simp [List.intercalate, words, wordsAux]
    · rw [if_neg ht]
      have hflat : (wrapWords (max_tokens * 4) (words text.data)).flatten
          = words text.data := by
        rw [wrapWords]
        simpa using wrapAux_flatten (max_tokens * 4) (words text.data) [] 0
      have h1 : ∀ line ∈ wrapWords (max_tokens * 4) (words text.data), line ≠ [] := by
        intro line hl
        exact wrapAux_lines_ne_nil (max_tokens * 4) (words text.data) [] 0 line hl
      have h2 : ∀ line ∈ wrapWords (max_tokens * 4) (words text.data),
          ∀ w ∈ line, w ≠ [] ∧ ∀ c ∈ w, c.isWhitespace = false := by
        intro line hl w hw
        have hmem : w ∈ (wrapWords (max_tokens * 4) (words text.data)).flatten :=
          List.mem_flatten.mpr ⟨line, hl, hw⟩
        rw [hflat] at hmem
        exact wordsAux_words_nonws text.data [] (by simp) w hmem
      have hmap : (((wrapWords (max_tokens * 4) (words text.data)).map
            (fun lw => String.mk (List.intercalate [' '] lw))).map String.data)
          = (wrapWords (max_tokens * 4) (words text.data)).map
              (List.intercalate [' ']) := by
        rw [List.map_map]
        rfl
      rw [hmap, words_intercalate_lines _ h1 h2, hflat]

/-- Witness for C5: whitespace-only input yields no chunks; a three-word
text keeps its word sequence after chunking at width 4. -/
theorem chunker_preserves_words_witness :
    split_text_into_chunks "  " 1 = [] ∧
    words (List.intercalate [' ']
        ((split_text_into_chunks "hello world hi" 1).map String.data))
      = words ("hello world hi").data :=
  ⟨(chunker_preserves_words "  " 1).1 (by decide),
    (chunker_preserves_words "hello world hi" 1).2⟩

theorem buildAllMetadata_all_none (docs : List (String × String × Option String))
    (h : ∀ d ∈ docs, d.2.2 = none) : buildAllMetadata docs = [] := by
  induction docs with
  | nil => rfl
  | cons d rest ih =>
    have hd : d.2.2 = none := h d (List.mem_cons_self d rest)
    have htail := ih (fun x hx => h x (List.mem_cons_of_mem d hx))
    simp only [buildAllMetadata, List.flatMap_cons, hd] at htail ⊢
    simpa using htail

theorem wordsAux_ne_nil_of_cur (l : List Char) : ∀ cur, cur ≠ [] →
    wordsAux l cur ≠ [] := by
  induction l with
  | nil => intro cur hc; simp [wordsAux, hc]
  | cons c rest ih =>
    intro cur hc
    by_cases hw : c.isWhitespace = true
    · simp [wordsAux, hw, hc]
    · have hw2 : c.isWhitespace = false := by simpa using hw
      simp only [wordsAux, hw2, Bool.false_eq_true, if_false]
      exact ih (c :: cur) (by simp)

theorem words_ne_nil (l : List Char) :
    (∃ c ∈ l, c.isWhitespace = false) → words l ≠ [] := by
  induction l with
  | nil => intro h; simp at h
  | cons c rest ih =>
    intro h
    by_cases hw : c.isWhitespace = true
    · have hrest : ∃ x ∈ rest, x.isWhitespace = false := by
        rcases h with ⟨x, hx, hxw⟩
        rcases List.mem_cons.mp hx with rfl | hx2
        · rw [hw] at hxw; cases hxw
        · exact ⟨x, hx2, hxw⟩
      have := ih hrest
      simpa [words, wordsAux, hw] using this
    · have hw2 : c.isWhitespace = false := by simpa using hw
      simp only [words, wordsAux, hw2, Bool.false_eq_true, if_false]
      exact wordsAux_ne_nil_of_cur rest [c] (by simp)

theorem split_ne_nil (text : String) (mt : Nat)
    (h : ∃ c ∈ text.data, c.isWhitespace = false) :
    split_text_into_chunks text mt ≠ [] := by
  have ht : text ≠ "" := by
    rcases h with ⟨c, hc, _⟩
    intro he
    subst he
    have hd : ("" : String).data = [] := rfl
    rw [hd] at hc
    simp at hc
  unfold split_text_into_chunks
  rw [if_neg ht]
  have hwne : words text.data ≠ [] := words_ne_nil text.data h
  have hlines : wrapWords (mt * 4) (words text.data) ≠ [] := by
    intro hl
    have h2 := wrapAux_flatten (mt * 4) (words text.data) [] 0
    rw [show wrapAux (mt * 4) (words text.data) [] 0
        = wrapWords (mt * 4) (words text.data) from rfl, hl] at h2
    simp at h2
    exact hwne h2
  intro hsplit
  exact hlines (by simpa using hsplit)

theorem flatMap_ne_nil_of_mem {α β : Type} {l : List α} {f : α → List β} {x : α}
    (hx : x ∈ l) (hf : f x ≠ []) : l.flatMap f ≠ [] := by
  intro h
  rcases List.exists_mem_of_ne_nil (f x) hf with ⟨y, hy⟩
  have hmem : y ∈ l.flatMap f := List.mem_flatMap.mpr ⟨x, hx, hy⟩
  rw [h] at hmem
  simp at hmem

theorem buildAllMetadata_sources (docs : List (String × String × Option String)) :
    ∀ m ∈ buildAllMetadata docs, ∃ d ∈ docs, (∃ t, d.2.2 = some t) ∧
      m.paper_name = d.1 ∧ m.paper_path = d.2.1 := by
  intro m hm
  unfold buildAllMetadata at hm
  rcases List.mem_flatMap.mp hm with ⟨d, hd, hmd⟩
  refine ⟨d, hd, ?_⟩
  cases ht : d.2.2 with
  | none => rw [ht] at hmd; simp at hmd
  | some t =>
    rw [ht] at hmd
    simp only [List.mem_map] at hmd
    rcases hmd with ⟨c, _, rfl⟩
    exact ⟨⟨t, rfl⟩, rfl, rfl⟩

/-- C8: an upload in which text extraction yields nothing for every
document fails with the 400 error before the embedding step and before
any index is built or persisted; if at least one document extracts to
text containing a non-whitespace character the upload proceeds with a
non-empty metadata list, and documents whose extraction failed
contribute nothing to the metadata (they are skipped, not fatal). -/
theorem upload_fail_fast (docs : List (String × String × Option String)) :
    ((∀ d ∈ docs, d.2.2 = none) →
        upload_papers docs = .err 400 "Failed to process PDFs - no text extracted") ∧
    ((∃ d ∈ docs, ∃ t, d.2.2 = some t ∧ ∃ c ∈ t.data, c.isWhitespace = false) →
        upload_papers docs
          = .ok (docs.map (fun d => d.1)) (docs.map (fun d => d.1)).length
              (buildAllMetadata docs) ∧
        buildAllMetadata docs ≠ []) ∧
    (∀ m ∈ buildAllMetadata docs, ∃ d ∈ docs, (∃ t, d.2.2 = some t) ∧
        m.paper_name = d.1 ∧ m.paper_path = d.2.1) := by
  refine ⟨?_, ?_, buildAllMetadata_sources docs⟩
  · intro h
    unfold upload_papers
    simp [buildAllMetadata_all_none docs h]
  · intro h
    rcases h with ⟨d, hd, t, ht, hc⟩
    have hne : buildAllMetadata docs ≠ [] := by
      unfold buildAllMetadata
      apply flatMap_ne_nil_of_mem hd
      rw [ht]
      have hchunks := split_ne_nil t 1000 hc
      simpa using hchunks
    have hok : upload_papers docs
        = .ok (docs.map (fun d => d.1)) (docs.map (fun d => d.1)).length
            (buildAllMetadata docs) := by
      unfold upload_papers
      simp [hne]
    exact ⟨hok, hne⟩

/-- Witness for C8: two failing documents give the 400 error; one good
document next to one failing document gives a successful upload with
non-empty metadata. -/
theorem upload_fail_fast_witness :
    upload_papers [("a", "pa", none), ("b", "pb", none)]
      = .err 400 "Failed to process PDFs - no text extracted" ∧
    (upload_papers [("a", "pa", some "hi"), ("b", "pb", none)]
        = .ok ["a", "b"] 2
            (buildAllMetadata [("a", "pa", some "hi"), ("b", "pb", none)]) ∧
      buildAllMetadata [("a", "pa", some "hi"), ("b", "pb", none)] ≠ []) := by
  constructor
  · exact (upload_fail_fast [("a", "pa", none), ("b", "pb", none)]).1 (by decide)
  · have h := (upload_fail_fast [("a", "pa", some "hi"), ("b", "pb", none)]).2.1
      ⟨("a", "pa", some "hi"), by decide, "hi", rfl, 'h', by decide, by decide⟩
    simpa using h

/-- C9 counterexample: document "b" fails extraction and contributes no
chunks, yet the returned paper list is `["a", "b"]` and the returned
count is 2 — the response does not exclude extraction-failed documents,
contrary to the claim. -/
theorem returned_papers_counterexample :
    upload_papers [("a", "pa", some "hi"), ("b", "pb", none)]
      = .ok ["a", "b"] 2 [⟨"hi", "a", "pa", 0, 1⟩] ∧
    "b" ∈ ["a", "b"] ∧
    ∀ m ∈ [(⟨"hi", "a", "pa", 0, 1⟩ : ChunkMeta)], m.paper_name ≠ "b" := by
  decide

/-- C9 amended: for every successful upload the returned paper list and
count comprise all saved valid PDF documents — including those whose
extraction failed — while the metadata the index is built over contains
entries only for documents whose extraction succeeded. -/
theorem returned_papers_amended (docs : List (String × String × Option String))
    (h : buildAllMetadata docs ≠ []) :
    upload_papers docs
      = .ok (docs.map (fun d => d.1)) (docs.map (fun d => d.1)).length
          (buildAllMetadata docs) ∧
    ∀ m ∈ buildAllMetadata docs, ∃ d ∈ docs, (∃ t, d.2.2 = some t) ∧
      m.paper_name = d.1 ∧ m.paper_path = d.2.1 := by
  refine ⟨?_, buildAllMetadata_sources docs⟩
  unfold upload_papers
  simp [h]

/-- Witness for C9's amended statement at the counterexample input. -/
theorem returned_papers_amended_witness :
    upload_papers [("a", "pa", some "hi"), ("b", "pb", none)]
      = .ok ([("a", "pa", some "hi"), ("b", "pb", none)].map (fun d => d.1))
          (([("a", "pa", some "hi"), ("b", "pb", none)].map (fun d => d.1)).length)
          (buildAllMetadata [("a", "pa", some "hi"), ("b", "pb", none)]) :=
  (returned_papers_amended [("a", "pa", some "hi"), ("b", "pb", none)] (by decide)).1

end SystematicReview
